import Mathlib

/-!
Verification of the trace-analysis scripts `analyze_checksums.py` and
`find_bursts.py`.

The Python scripts are shallowly embedded: timestamps of the checksum trace
are natural numbers (microseconds), resources and checksums are opaque
strings, and flush timestamps are rationals (seconds, exact stand-ins for
the scripts' decimal literals).  The `writes` dictionary is modelled as an
association list with in-place overwrite, mirroring Python dict insertion
semantics; `for` loops over lists become `List.foldl`; the two `while`
loops of the burst scanner become fuel-indexed structural recursions whose
fuel (`ts.length`) bounds the number of iterations, since each iteration
strictly increases the cursor, which stays below `ts.length`.
-/

/-- A `Map type=READ` trace line: `reads.append((timestamp, resource, checksum))`. -/
structure ReadEvent where
  timestamp : Nat
  resource : String
  checksum : String
deriving DecidableEq

/-- A `CopySubresourceRegion` trace line: `copies.append((timestamp, src, dst))`. -/
structure CopyEvent where
  timestamp : Nat
  src : String
  dst : String
deriving DecidableEq

/-- Typed trace events produced by the extractor (one per recognized line). -/
inductive TraceEvent where
  | write (timestamp : Nat) (resource checksum : String)
  | read (timestamp : Nat) (resource checksum : String)
  | copy (timestamp : Nat) (src dst : String)
deriving DecidableEq

/-- The accumulator state of the extraction pass: the `writes` dict
(association list keyed by resource, holding `(timestamp, checksum)`),
the `reads` list and the `copies` list. -/
structure ExtractState where
  writes : List (String × Nat × String)
  reads : List ReadEvent
  copies : List CopyEvent
deriving DecidableEq

/-- `writes[resource] = (timestamp, checksum)`: Python dict assignment on an
association list — overwrite in place if the key is present, append otherwise. -/
def recordWrite : List (String × Nat × String) → String → Nat × String →
    List (String × Nat × String)
  | [], r, v => [(r, v)]
  | (k, w) :: t, r, v => if k = r then (r, v) :: t else (k, w) :: recordWrite t r v

/-- `resource in writes` followed by `writes[resource]`: dict lookup. -/
def lookupWrite : List (String × Nat × String) → String → Option (Nat × String)
  | [], _ => none
  | (k, v) :: t, r => if k = r then some v else lookupWrite t r

/-- One step of the extraction loop (lines 16-31 of `analyze_checksums.py`). -/
def processEvent (s : ExtractState) : TraceEvent → ExtractState
  | .write t r c => { s with writes := recordWrite s.writes r (t, c) }
  | .read t r c => { s with reads := s.reads ++ [⟨t, r, c⟩] }
  | .copy t a b => { s with copies := s.copies ++ [⟨t, a, b⟩] }

/-- The full extraction pass over the recognized events of the trace. -/
def extractTrace (evs : List TraceEvent) : ExtractState :=
  evs.foldl processEvent ⟨[], [], []⟩

/-- The copy event carried by a trace event, if it is one. -/
def copyOf : TraceEvent → Option CopyEvent
  | .copy t a b => some ⟨t, a, b⟩
  | _ => none

/-- The guard of the `recent_copy` loop (line 47):
`copy_time < read_time and dst == read_res`. -/
def qualifies (res : String) (before : Nat) (c : CopyEvent) : Prop :=
  c.timestamp < before ∧ c.dst = res

instance (res : String) (before : Nat) (c : CopyEvent) :
    Decidable (qualifies res before c) :=
  inferInstanceAs (Decidable (c.timestamp < before ∧ c.dst = res))

/-- One iteration of the `recent_copy` search (lines 46-49): a qualifying copy
replaces the candidate when there is none yet or when its timestamp is
strictly larger. -/
def pickCopy (res : String) (before : Nat) (recent : Option CopyEvent)
    (c : CopyEvent) : Option CopyEvent :=
  if qualifies res before c then
    match recent with
    | none => some c
    | some b => if c.timestamp > b.timestamp then some c else some b
  else recent

/-- The `recent_copy` search (lines 45-49): scan all copies, starting from
`recent_copy = None`. -/
def latestCopyInto (copies : List CopyEvent) (res : String) (before : Nat) :
    Option CopyEvent :=
  copies.foldl (pickCopy res before) none

/-- Outcome of the verifier for a single read. -/
inductive Classification where
  | matched
  | mismatched
  | unclassified
deriving DecidableEq

/-- Classification of one read (lines 43-61): resolve the most recent copy
into the read resource, look the copy's source up in the writes dict, and
compare checksums; absence at either step leaves the read unclassified. -/
def classifyRead (writes : List (String × Nat × String)) (copies : List CopyEvent)
    (r : ReadEvent) : Classification :=
  match latestCopyInto copies r.resource r.timestamp with
  | none => .unclassified
  | some c =>
    match lookupWrite writes c.src with
    | none => .unclassified
    | some (_, wchk) => if wchk = r.checksum then .matched else .mismatched

/-- The `matches` and `mismatches` counters accumulated over all reads. -/
def verifyCounts (writes : List (String × Nat × String)) (copies : List CopyEvent)
    (reads : List ReadEvent) : Nat × Nat :=
  reads.foldl
    (fun mc r =>
      match classifyRead writes copies r with
      | .matched => (mc.1 + 1, mc.2)
      | .mismatched => (mc.1, mc.2 + 1)
      | .unclassified => mc)
    (0, 0)

/-- Number of reads the verifier leaves unclassified. -/
def unclassifiedCount (writes : List (String × Nat × String)) (copies : List CopyEvent)
    (reads : List ReadEvent) : Nat :=
  reads.countP (fun r => decide (classifyRead writes copies r = .unclassified))

/-- `checksum_counts[checksum] += 1` on a `defaultdict(int)`: increment in
place if the key is present, append a fresh count of 1 otherwise (Python
dicts keep keys in first-insertion order). -/
def bumpCount : List (String × Nat) → String → List (String × Nat)
  | [], c => [(c, 1)]
  | (k, n) :: t, c => if k = c then (k, n + 1) :: t else (k, n) :: bumpCount t c

/-- The checksum-frequency table, in first-occurrence order of checksums. -/
def checksumCounts (reads : List ReadEvent) : List (String × Nat) :=
  reads.foldl (fun acc r => bumpCount acc r.checksum) []

/-- The comparison used to sort frequency entries: `key=lambda x: -x[1]`
orders by count descending; Python's `sorted` is stable, and a stable sort
with respect to a total preorder is exactly insertion sort with the
non-strict comparison. -/
def countGE (x y : String × Nat) : Prop := y.2 ≤ x.2

instance : DecidableRel countGE := fun x y => Nat.decLe y.2 x.2

instance : IsTotal (String × Nat) countGE := ⟨fun a b => Nat.le_total b.2 a.2⟩

instance : IsTrans (String × Nat) countGE := ⟨fun _ _ _ hab hbc => le_trans hbc hab⟩

/-- `sorted(checksum_counts.items(), key=lambda x: -x[1])[:10]` (line 78). -/
def topChecksums (reads : List ReadEvent) : List (String × Nat) :=
  ((checksumCounts reads).insertionSort countGE).take 10

/-- `read_intervals` (lines 86-89): consecutive timestamp differences of the
reads in encounter order. -/
def readIntervals (reads : List ReadEvent) : List ℤ :=
  (reads.zip reads.tail).map (fun p => (p.2.timestamp : ℤ) - (p.1.timestamp : ℤ))

/-- The statistics of lines 91-95 over a computed interval list: nothing when
the list is empty, otherwise (mean, minimum, maximum). -/
def intervalStatsAux : List ℤ → Option (ℚ × ℤ × ℤ)
  | [] => none
  | x :: t =>
    some ((((x :: t).foldl (· + ·) 0 : ℤ) : ℚ) / ((x :: t).length : ℚ),
      t.foldl min x, t.foldl max x)

/-- The timing analysis of the read sequence. -/
def intervalStats (reads : List ReadEvent) : Option (ℚ × ℤ × ℤ) :=
  intervalStatsAux (readIntervals reads)

/-- The extension loop of `find_bursts.py` (lines 36-41): grow `e` while the
next flush exists and follows within 0.1 s.  The fuel bounds the number of
iterations; `e` stays below `ts.length`, so `ts.length` fuel is never
exhausted before the loop condition fails. -/
def extendBurst (ts : List ℚ) : Nat → Nat → Nat
  | 0, e => e
  | fuel + 1, e =>
    if e < ts.length - 1 ∧ ts.getD (e + 1) 0 - ts.getD e 0 < 1/10 then
      extendBurst ts fuel (e + 1)
    else e

/-- The scan loop of `find_bursts.py` (lines 23-59).  At cursor `i` (while
`i < len(flushes) - 10`): if the 10-flush window starting at `i` spans less
than 5 s, extend from `e = i + 9`; if the extended run holds more than 30
flushes, record `(start, end, count)` and jump to `e + 1`, otherwise advance
by one; a non-dense window also advances by one.  The cursor strictly
increases while staying below `ts.length`, so `ts.length` fuel suffices. -/
def burstScanAux (ts : List ℚ) : Nat → Nat → List (ℚ × ℚ × Nat)
  | 0, _ => []
  | fuel + 1, i =>
    if i < ts.length - 10 then
      if ts.getD (i + 9) 0 - ts.getD i 0 < 5 then
        let e := extendBurst ts ts.length (i + 9)
        if e - i + 1 > 30 then
          (ts.getD i 0, ts.getD e 0, e - i + 1) :: burstScanAux ts fuel (e + 1)
        else
          burstScanAux ts fuel (i + 1)
      else
        burstScanAux ts fuel (i + 1)
    else []

/-- The burst list produced by `find_bursts.py` for a flush-timestamp list. -/
def findBursts (ts : List ℚ) : List (ℚ × ℚ × Nat) :=
  burstScanAux ts ts.length 0

/-- Modelled from the spec, section 4.5: `WINDOW_SIZE = 10`. -/
def WINDOW_SIZE : Nat := 10

/-- Modelled from the spec, section 4.5: `DENSE_SPAN_THRESHOLD = 5.0s`. -/
def DENSE_SPAN_THRESHOLD : ℚ := 5

/-- Modelled from the spec, section 4.5: `GAP_THRESHOLD = 0.1s`. -/
def GAP_THRESHOLD : ℚ := 1/10

/-- Modelled from the spec, section 4.5: `MIN_BURST_COUNT = 30`. -/
def MIN_BURST_COUNT : Nat := 30

/-- Modelled from the spec, section 4.5 step 3: while `e < N - 1` and
`timestamps[e+1] - timestamps[e] < GAP_THRESHOLD`, advance `e += 1`. -/
def specExtend (ts : List ℚ) : Nat → Nat → Nat
  | 0, e => e
  | fuel + 1, e =>
    if e < ts.length - 1 ∧ ts.getD (e + 1) 0 - ts.getD e 0 < GAP_THRESHOLD then
      specExtend ts fuel (e + 1)
    else e

/-- Modelled from the spec, section 4.5 steps 1-5: loop while
`i < N - WINDOW_SIZE`; reject the window when
`span = timestamps[i + WINDOW_SIZE - 1] - timestamps[i]` is at least
`DENSE_SPAN_THRESHOLD` and advance by one; otherwise extend
`e` from `i + WINDOW_SIZE - 1`, emit
`{timestamps[i], timestamps[e], e - i + 1}` and jump to `e + 1` when the
count exceeds `MIN_BURST_COUNT`, else advance by one. -/
def specScan (ts : List ℚ) : Nat → Nat → List (ℚ × ℚ × Nat)
  | 0, _ => []
  | fuel + 1, i =>
    if i < ts.length - WINDOW_SIZE then
      if DENSE_SPAN_THRESHOLD ≤ ts.getD (i + (WINDOW_SIZE - 1)) 0 - ts.getD i 0 then
        specScan ts fuel (i + 1)
      else
        let e := specExtend ts ts.length (i + (WINDOW_SIZE - 1))
        if e - i + 1 > MIN_BURST_COUNT then
          (ts.getD i 0, ts.getD e 0, e - i + 1) :: specScan ts fuel (e + 1)
        else
          specScan ts fuel (i + 1)
    else []

/-- Modelled from the spec, section 4.5: the burst records of the scan. -/
def specDetectBursts (ts : List ℚ) : List (ℚ × ℚ × Nat) :=
  specScan ts ts.length 0

/-- A writes dict holding one completed write to resource `s`. -/
def c1writes : List (String × Nat × String) := [("s", 3, "0xaa")]

/-- One copy from `s` into `d` at time 5. -/
def c1copies : List CopyEvent := [⟨5, "s", "d"⟩]

/-- A read of `d` at time 10 observing the copied checksum. -/
def c1read : ReadEvent := ⟨10, "d", "0xaa"⟩

/-- Three copies into `d` with distinct timestamps and one into another
resource, exercising the maximization of the copy search. -/
def c2copies : List CopyEvent :=
  [⟨1, "s1", "d"⟩, ⟨3, "s2", "d"⟩, ⟨2, "s3", "d"⟩, ⟨9, "sx", "e"⟩]

/-- The burst scenario of the spec, section 8: 35 flush timestamps at
0, 10, 20, ..., 340 milliseconds, in seconds. -/
def ts35 : List ℚ :=
  [0, 1/100, 2/100, 3/100, 4/100, 5/100, 6/100, 7/100, 8/100, 9/100,
   10/100, 11/100, 12/100, 13/100, 14/100, 15/100, 16/100, 17/100, 18/100,
   19/100, 20/100, 21/100, 22/100, 23/100, 24/100, 25/100, 26/100, 27/100,
   28/100, 29/100, 30/100, 31/100, 32/100, 33/100, 34/100]

/-- Two reads whose checksums each occur once, with the lexicographically
larger checksum encountered first. -/
def c5reads : List ReadEvent := [⟨0, "r", "0xb"⟩, ⟨1, "r", "0xa"⟩]

/-- The non-burst scenario of the spec, section 8, instantiated: 9 flushes
10 ms apart, a 10 s gap, then flushes 6 s apart. -/
def c6list : List ℚ :=
  [0, 1/100, 2/100, 3/100, 4/100, 5/100, 6/100, 7/100, 8/100,
   1008/100, 1608/100, 2208/100, 2808/100, 3408/100, 4008/100, 4608/100,
   5208/100, 5808/100, 6408/100, 7008/100]

/-- Reads at 100, 300 and 700 microseconds. -/
def c7reads : List ReadEvent := [⟨100, "r", "a"⟩, ⟨300, "r", "a"⟩, ⟨700, "r", "a"⟩]

/-- Ten sparse flushes 10 s apart followed by ten flushes 10 ms apart: the
only dense 10-flush window is the final one, anchored at index 10. -/
def c10list : List ℚ :=
  [0, 10, 20, 30, 40, 50, 60, 70, 80, 90,
   100, 10001/100, 10002/100, 10003/100, 10004/100, 10005/100, 10006/100,
   10007/100, 10008/100, 10009/100]

/-! ### Burst-detector lemmas -/

/-- The extension loop returns `e` unchanged when its guard fails. -/
theorem extendBurst_stop (ts : List ℚ) (fuel e : Nat)
    (h : ¬(e < ts.length - 1 ∧ ts.getD (e + 1) 0 - ts.getD e 0 < 1/10)) :
    extendBurst ts fuel e = e := by
  cases fuel with
  | zero => rfl
  | succ n => simp only [extendBurst, if_neg h]

/-- The extension loop advances by one when its guard holds. -/
theorem extendBurst_step (ts : List ℚ) (fuel e : Nat)
    (h : e < ts.length - 1 ∧ ts.getD (e + 1) 0 - ts.getD e 0 < 1/10) :
    extendBurst ts (fuel + 1) e = extendBurst ts fuel (e + 1) := by
  simp only [extendBurst, if_pos h]

/-- When every gap from `e` onwards is below the threshold and the fuel
covers the remaining positions, the extension loop reaches the last index. -/
theorem extendBurst_all_close (ts : List ℚ) (fuel e : Nat)
    (hfuel : ts.length - 1 ≤ e + fuel) (hle : e ≤ ts.length - 1)
    (hgap : ∀ k, e ≤ k → k + 1 < ts.length →
      ts.getD (k + 1) 0 - ts.getD k 0 < 1/10) :
    extendBurst ts fuel e = ts.length - 1 := by
  induction fuel generalizing e with
  | zero =>
    simp only [extendBurst]
    omega
  | succ n ih =>
    by_cases hc : e < ts.length - 1
    · have he1 : e + 1 < ts.length := by omega
      rw [extendBurst_step ts n e ⟨hc, hgap e le_rfl he1⟩]
      exact ih (e + 1) (by omega) (by omega) (fun k hk => hgap k (by omega))
    · have he : e = ts.length - 1 := by omega
      rw [extendBurst_stop ts (n + 1) e (fun hcon => hc hcon.1)]
      exact he

/-- The scan emits nothing once the cursor leaves the tested range. -/
theorem burstScanAux_stop (ts : List ℚ) (fuel i : Nat)
    (h : ¬ i < ts.length - 10) : burstScanAux ts fuel i = [] := by
  cases fuel with
  | zero => rfl
  | succ n => simp only [burstScanAux, if_neg h]

/-- The scan records a burst and jumps past it when the window is dense and
the extended run is long enough. -/
theorem burstScanAux_emit (ts : List ℚ) (fuel i : Nat)
    (h1 : i < ts.length - 10)
    (h2 : ts.getD (i + 9) 0 - ts.getD i 0 < 5)
    (h3 : extendBurst ts ts.length (i + 9) - i + 1 > 30) :
    burstScanAux ts (fuel + 1) i =
      (ts.getD i 0, ts.getD (extendBurst ts ts.length (i + 9)) 0,
        extendBurst ts ts.length (i + 9) - i + 1) ::
        burstScanAux ts fuel (extendBurst ts ts.length (i + 9) + 1) := by
  simp only [burstScanAux, if_pos h1, if_pos h2, if_pos h3]

/-- The scan advances by one past a non-dense window. -/
theorem burstScanAux_skip_sparse (ts : List ℚ) (fuel i : Nat)
    (h1 : i < ts.length - 10)
    (h2 : ¬ ts.getD (i + 9) 0 - ts.getD i 0 < 5) :
    burstScanAux ts (fuel + 1) i = burstScanAux ts fuel (i + 1) := by
  simp only [burstScanAux, if_pos h1, if_neg h2]

/-- The scan advances by one past a dense window whose extension stays at or
below 30 flushes. -/
theorem burstScanAux_skip_small (ts : List ℚ) (fuel i : Nat)
    (h1 : i < ts.length - 10)
    (h2 : ts.getD (i + 9) 0 - ts.getD i 0 < 5)
    (h3 : ¬ extendBurst ts ts.length (i + 9) - i + 1 > 30) :
    burstScanAux ts (fuel + 1) i = burstScanAux ts fuel (i + 1) := by
  simp only [burstScanAux, if_pos h1, if_pos h2, if_neg h3]

/-- When no tested window is dense, the scan emits nothing from any cursor. -/
theorem burstScanAux_nil (ts : List ℚ)
    (h : ∀ j, j < ts.length - 10 → ¬ ts.getD (j + 9) 0 - ts.getD j 0 < 5) :
    ∀ fuel i, burstScanAux ts fuel i = [] := by
  intro fuel
  induction fuel with
  | zero => intro i; rfl
  | succ n ih =>
    intro i
    by_cases hi : i < ts.length - 10
    · rw [burstScanAux_skip_sparse ts n i hi (h i hi)]
      exact ih (i + 1)
    · exact burstScanAux_stop ts (n + 1) i hi

/-- Nonnegative consecutive gaps make the timestamp sequence monotone. -/
theorem getD_mono_of_gaps (ts : List ℚ)
    (h : ∀ k, k + 1 < ts.length → 0 ≤ ts.getD (k + 1) 0 - ts.getD k 0) :
    ∀ d a, a + d < ts.length → ts.getD a 0 ≤ ts.getD (a + d) 0 := by
  intro d
  induction d with
  | zero => intro a _; exact le_refl _
  | succ n ih =>
    intro a ha
    have h1 : ts.getD a 0 ≤ ts.getD (a + n) 0 := ih a (by omega)
    have h2 : 0 ≤ ts.getD (a + n + 1) 0 - ts.getD (a + n) 0 := h (a + n) (by omega)
    have he : a + (n + 1) = a + n + 1 := by omega
    rw [he]
    linarith

/-- The spec's extension phase coincides with the code's extension loop. -/
theorem specExtend_eq_extendBurst (ts : List ℚ) :
    ∀ fuel e, specExtend ts fuel e = extendBurst ts fuel e := by
  intro fuel
  induction fuel with
  | zero => intro e; rfl
  | succ n ih =>
    intro e
    simp only [specExtend, extendBurst, GAP_THRESHOLD]
    split_ifs with h
    · exact ih (e + 1)
    · rfl

/-- The spec's scan coincides with the code's scan from every cursor. -/
theorem specScan_eq_burstScanAux (ts : List ℚ) :
    ∀ fuel i, specScan ts fuel i = burstScanAux ts fuel i := by
  intro fuel
  induction fuel with
  | zero => intro i; rfl
  | succ n ih =>
    intro i
    have h91 : (10 : Nat) - 1 = 9 := rfl
    simp only [specScan, burstScanAux, WINDOW_SIZE, DENSE_SPAN_THRESHOLD,
      MIN_BURST_COUNT, specExtend_eq_extendBurst, h91, ih]
    by_cases h1 : i < ts.length - 10
    · rw [if_pos h1, if_pos h1]
      rcases lt_or_le (ts.getD (i + 9) 0 - ts.getD i 0) 5 with h2 | h2
      · rw [if_neg (not_le.mpr h2), if_pos h2]
      · rw [if_pos h2, if_neg (not_lt.mpr h2)]
    · rw [if_neg h1, if_neg h1]

/-- Claim C3: for every flush-timestamp sequence, the burst detector's scan
equals the spec's algorithm — reject a window at cursor `i` when
`timestamps[i+9] - timestamps[i] >= 5.0` and advance by one; otherwise extend
`e` from `i+9` while `e < N-1` and the next gap is below `0.1`; emit
`{timestamps[i], timestamps[e], e-i+1}` and set `i = e+1` exactly when the
count exceeds 30, else advance by one. -/
theorem C3_scan_refines_spec (ts : List ℚ) : specDetectBursts ts = findBursts ts := by
  simp only [specDetectBursts, findBursts, specScan_eq_burstScanAux]

/-- Claim C4: on 35 flush timestamps at 0, 10, ..., 340 ms, the detector
emits exactly one burst, starting at 0 s, ending at 0.34 s, with count 35,
and the reported duration `(end - start) * 1000` is 340 ms. -/
theorem C4_burst_scenario :
    findBursts ts35 = [(0, 17/50, 35)] ∧ ((17/50 : ℚ) - 0) * 1000 = 340 := by
  have hlen : ts35.length = 35 := rfl
  have hgap : ∀ k, 9 ≤ k → k + 1 < ts35.length →
      ts35.getD (k + 1) 0 - ts35.getD k 0 < 1/10 := by
    intro k h1 h2
    rw [hlen] at h2
    have hk : k ≤ 33 := by omega
    interval_cases k <;> norm_num [ts35]
  have hext : extendBurst ts35 ts35.length 9 = 34 := by
    have h := extendBurst_all_close ts35 ts35.length 9 (by omega)
      (by rw [hlen]; omega) hgap
    rw [hlen] at h ⊢
    rw [h]
  constructor
  · show burstScanAux ts35 ts35.length 0 = _
    have h1 : (0 : Nat) < ts35.length - 10 := by rw [hlen]; omega
    have h2 : ts35.getD (0 + 9) 0 - ts35.getD 0 0 < 5 := by norm_num [ts35]
    have hext0 : extendBurst ts35 ts35.length (0 + 9) = 34 := hext
    have h3 : extendBurst ts35 ts35.length (0 + 9) - 0 + 1 > 30 := by
      rw [hext0]
      omega
    rw [hlen, show (35 : Nat) = 34 + 1 from rfl,
      burstScanAux_emit ts35 34 0 h1 h2 h3, hext0,
      burstScanAux_stop ts35 34 (34 + 1) (by rw [hlen]; omega)]
    norm_num [ts35]
  · norm_num

/-- Claim C6: on any input of 9 flush timestamps spaced 10 ms apart, then a
gap of 10 seconds, then flushes whose consecutive gaps all exceed 5 seconds,
the burst detector emits no burst: every testable 10-flush window either
crosses the 10 s gap or lies in the sparse region, so its span reaches the
5 s threshold. -/
theorem C6_nonburst_scenario (ts : List ℚ)
    (hgap : ∀ k, k + 1 < ts.length →
      (k < 8 → ts.getD (k + 1) 0 - ts.getD k 0 = 1/100) ∧
      (k = 8 → ts.getD (k + 1) 0 - ts.getD k 0 = 10) ∧
      (8 < k → 5 < ts.getD (k + 1) 0 - ts.getD k 0)) :
    findBursts ts = [] := by
  have hpos : ∀ k, k + 1 < ts.length → 0 ≤ ts.getD (k + 1) 0 - ts.getD k 0 := by
    intro k hk
    rcases Nat.lt_trichotomy k 8 with h | h | h
    · rw [(hgap k hk).1 h]; norm_num
    · rw [(hgap k hk).2.1 h]; norm_num
    · linarith [(hgap k hk).2.2 h]
  have mono := getD_mono_of_gaps ts hpos
  show burstScanAux ts ts.length 0 = []
  refine burstScanAux_nil ts ?_ ts.length 0
  intro j hj
  rw [not_lt]
  have hlen : j + 10 < ts.length := by omega
  by_cases hj8 : j ≤ 8
  · have h89 : ts.getD 9 0 - ts.getD 8 0 = 10 := (hgap 8 (by omega)).2.1 rfl
    have hup : ts.getD 9 0 ≤ ts.getD (j + 9) 0 := by
      have h := mono j 9 (by omega)
      rwa [show 9 + j = j + 9 by omega] at h
    have hdown : ts.getD j 0 ≤ ts.getD 8 0 := by
      have h := mono (8 - j) j (by omega)
      rwa [show j + (8 - j) = 8 by omega] at h
    linarith
  · push_neg at hj8
    have hgt : 5 < ts.getD (j + 1) 0 - ts.getD j 0 := (hgap j (by omega)).2.2 hj8
    have hup : ts.getD (j + 1) 0 ≤ ts.getD (j + 9) 0 := by
      have h := mono 8 (j + 1) (by omega)
      rwa [show j + 1 + 8 = j + 9 by omega] at h
    linarith

/-- Witness for C6: a concrete 20-flush trace with the stated gap structure
produces no burst. -/
theorem C6_witness : findBursts c6list = [] := by
  apply C6_nonburst_scenario
  intro k hk
  have hlen : c6list.length = 20 := rfl
  rw [hlen] at hk
  refine ⟨fun h8 => ?_, fun h8 => ?_, fun h8 => ?_⟩
  · interval_cases k <;> norm_num [c6list]
  · subst h8
    norm_num [c6list]
  · have hk9 : 9 ≤ k := by omega
    have hk18 : k ≤ 18 := by omega
    interval_cases k <;> norm_num [c6list]

/-- Claim C10: the dense-window test runs only at cursors `i < N - 10`, so
the window anchored at `i = N - 10` — the one ending exactly at the last
flush — is never tested: whenever every window at a tested cursor fails the
density test, no burst is emitted, regardless of how dense the final
10 flushes are. -/
theorem C10_final_window_never_tested (ts : List ℚ)
    (h : ∀ i, i < ts.length - 10 → ¬ ts.getD (i + 9) 0 - ts.getD i 0 < 5) :
    findBursts ts = [] := by
  show burstScanAux ts ts.length 0 = []
  exact burstScanAux_nil ts h ts.length 0

/-- Witness for C10: ten sparse flushes followed by ten flushes 10 ms apart.
The final window (indices 10-19) spans 0.09 s, far below the 5 s threshold,
yet no burst is emitted because its anchor is never tested. -/
theorem C10_witness :
    c10list.getD 19 0 - c10list.getD 10 0 < 5 ∧ findBursts c10list = [] := by
  constructor
  · norm_num [c10list]
  · apply C10_final_window_never_tested
    intro i hi
    have hlen : c10list.length = 20 := rfl
    rw [hlen] at hi
    interval_cases i <;> norm_num [c10list]

/-! ### Copy-resolution lemmas -/

/-- A non-qualifying copy leaves the candidate unchanged. -/
theorem pickCopy_of_not_qual {res : String} {before : Nat} (recent : Option CopyEvent)
    (c : CopyEvent) (h : ¬ qualifies res before c) :
    pickCopy res before recent c = recent := by
  simp only [pickCopy, if_neg h]

/-- A qualifying copy becomes the candidate when there was none. -/
theorem pickCopy_none {res : String} {before : Nat} {c : CopyEvent}
    (h : qualifies res before c) : pickCopy res before none c = some c := by
  simp only [pickCopy, if_pos h]

/-- A qualifying copy with strictly larger timestamp replaces the candidate. -/
theorem pickCopy_some_gt {res : String} {before : Nat} {c : CopyEvent} (b : CopyEvent)
    (h : qualifies res before c) (hgt : c.timestamp > b.timestamp) :
    pickCopy res before (some b) c = some c := by
  simp only [pickCopy, if_pos h, if_pos hgt]

/-- A qualifying copy without strictly larger timestamp is ignored. -/
theorem pickCopy_some_le {res : String} {before : Nat} {c : CopyEvent} (b : CopyEvent)
    (h : qualifies res before c) (hle : ¬ c.timestamp > b.timestamp) :
    pickCopy res before (some b) c = some b := by
  simp only [pickCopy, if_pos h, if_neg hle]

/-- Once the search holds a candidate, it ends with a candidate that is the
seed or a qualifying list member, has a timestamp at least the seed's, and
dominates every qualifying member. -/
theorem foldl_pickCopy_seeded (res : String) (before : Nat) :
    ∀ (t : List CopyEvent) (b : CopyEvent),
      ∃ b2, t.foldl (pickCopy res before) (some b) = some b2 ∧
        b.timestamp ≤ b2.timestamp ∧
        (b2 = b ∨ (b2 ∈ t ∧ qualifies res before b2)) ∧
        ∀ c ∈ t, qualifies res before c → c.timestamp ≤ b2.timestamp := by
  intro t
  induction t with
  | nil =>
    intro b
    exact ⟨b, rfl, le_refl _, Or.inl rfl, by simp⟩
  | cons c t ih =>
    intro b
    by_cases hq : qualifies res before c
    · by_cases hgt : c.timestamp > b.timestamp
      · obtain ⟨b2, hfold, hle, hmem, hmax⟩ := ih c
        refine ⟨b2, ?_, by omega, ?_, ?_⟩
        · rw [List.foldl_cons, pickCopy_some_gt b hq hgt]
          exact hfold
        · rcases hmem with heq | hm
          · exact Or.inr ⟨by rw [heq]; exact List.mem_cons_self c t, by rw [heq]; exact hq⟩
          · exact Or.inr ⟨List.mem_cons_of_mem c hm.1, hm.2⟩
        · intro c2 hc2 hq2
          rcases List.mem_cons.mp hc2 with heq | hm
          · rw [heq]; exact hle
          · exact hmax c2 hm hq2
      · obtain ⟨b2, hfold, hle, hmem, hmax⟩ := ih b
        refine ⟨b2, ?_, hle, hmem.imp_right (fun hm => ⟨List.mem_cons_of_mem c hm.1, hm.2⟩), ?_⟩
        · rw [List.foldl_cons, pickCopy_some_le b hq hgt]
          exact hfold
        · intro c2 hc2 hq2
          rcases List.mem_cons.mp hc2 with heq | hm
          · rw [heq]; omega
          · exact hmax c2 hm hq2
    · obtain ⟨b2, hfold, hle, hmem, hmax⟩ := ih b
      refine ⟨b2, ?_, hle, hmem.imp_right (fun hm => ⟨List.mem_cons_of_mem c hm.1, hm.2⟩), ?_⟩
      · rw [List.foldl_cons, pickCopy_of_not_qual (some b) c hq]
        exact hfold
      · intro c2 hc2 hq2
        rcases List.mem_cons.mp hc2 with heq | hm
        · rw [heq] at hq2
          exact absurd hq2 hq
        · exact hmax c2 hm hq2

/-- The search returns nothing exactly when no copy qualifies. -/
theorem latestCopyInto_none_iff (copies : List CopyEvent) (res : String) (before : Nat) :
    latestCopyInto copies res before = none ↔ ∀ c ∈ copies, ¬ qualifies res before c := by
  induction copies with
  | nil => simp [latestCopyInto]
  | cons c t ih =>
    by_cases hq : qualifies res before c
    · obtain ⟨b2, hfold, -, -, -⟩ := foldl_pickCopy_seeded res before t c
      constructor
      · intro h
        rw [latestCopyInto, List.foldl_cons, pickCopy_none hq, hfold] at h
        exact absurd h (by simp)
      · intro h
        exact absurd hq (h c (List.mem_cons_self c t))
    · rw [latestCopyInto, List.foldl_cons, pickCopy_of_not_qual none c hq]
      rw [latestCopyInto] at ih
      rw [ih]
      constructor
      · intro h c2 hc2
        rcases List.mem_cons.mp hc2 with heq | hm
        · rw [heq]; exact hq
        · exact h c2 hm
      · intro h c2 hc2
        exact h c2 (List.mem_cons_of_mem c hc2)

/-- A returned copy is a qualifying member of the list that dominates every
qualifying member in timestamp. -/
theorem latestCopyInto_some_spec (copies : List CopyEvent) (res : String) (before : Nat) :
    ∀ b, latestCopyInto copies res before = some b →
      b ∈ copies ∧ qualifies res before b ∧
      ∀ c ∈ copies, qualifies res before c → c.timestamp ≤ b.timestamp := by
  induction copies with
  | nil =>
    intro b h
    exact absurd h (by simp [latestCopyInto])
  | cons c t ih =>
    intro b h
    by_cases hq : qualifies res before c
    · obtain ⟨b2, hfold, hle, hmem, hmax⟩ := foldl_pickCopy_seeded res before t c
      rw [latestCopyInto, List.foldl_cons, pickCopy_none hq, hfold] at h
      have hb2 : b2 = b := Option.some.inj h
      subst hb2
      refine ⟨?_, ?_, ?_⟩
      · rcases hmem with heq | hm
        · rw [heq]; exact List.mem_cons_self c t
        · exact List.mem_cons_of_mem c hm.1
      · rcases hmem with heq | hm
        · rw [heq]; exact hq
        · exact hm.2
      · intro c2 hc2 hq2
        rcases List.mem_cons.mp hc2 with heq | hm
        · rw [heq]; exact hle
        · exact hmax c2 hm hq2
    · rw [latestCopyInto, List.foldl_cons, pickCopy_of_not_qual none c hq] at h
      have hspec := ih b h
      refine ⟨List.mem_cons_of_mem c hspec.1, hspec.2.1, ?_⟩
      intro c2 hc2 hq2
      rcases List.mem_cons.mp hc2 with heq | hm
      · rw [heq] at hq2
        exact absurd hq2 hq
      · exact hspec.2.2 c2 hm hq2

/-- Claim C2: for every resource and read timestamp, the provenance search
returns, among the retained copies whose destination is the resource and
whose timestamp is strictly earlier, one maximizing the timestamp, and
returns nothing exactly when no such copy exists. -/
theorem C2_latest_copy_resolution (copies : List CopyEvent) (res : String) (before : Nat) :
    (latestCopyInto copies res before = none ↔ ∀ c ∈ copies, ¬ qualifies res before c) ∧
    ∀ b, latestCopyInto copies res before = some b →
      b ∈ copies ∧ qualifies res before b ∧
      ∀ c ∈ copies, qualifies res before c → c.timestamp ≤ b.timestamp :=
  ⟨latestCopyInto_none_iff copies res before, latestCopyInto_some_spec copies res before⟩

/-- Witness for C2: among three copies into `d` before time 10, the one with
timestamp 3 is returned, and it dominates all qualifying copies. -/
theorem C2_witness :
    latestCopyInto c2copies "d" 10 = some ⟨3, "s2", "d"⟩ ∧
    (⟨3, "s2", "d"⟩ : CopyEvent) ∈ c2copies ∧ qualifies "d" 10 ⟨3, "s2", "d"⟩ ∧
    ∀ c ∈ c2copies, qualifies "d" 10 c → c.timestamp ≤ 3 := by
  have h : latestCopyInto c2copies "d" 10 = some ⟨3, "s2", "d"⟩ := by decide
  have hspec := (C2_latest_copy_resolution c2copies "d" 10).2 ⟨3, "s2", "d"⟩ h
  exact ⟨h, hspec.1, hspec.2.1, hspec.2.2⟩

/-- Claim C1: a read with a resolvable provenance chain (a qualifying copy
exists and the writes dict holds the resolved copy's source) is classified
Match exactly when the resolved write's checksum equals the read's, and
Mismatch otherwise; a read with no resolvable chain is unclassified and
changes neither counter. -/
theorem C1_classification (writes : List (String × Nat × String))
    (copies : List CopyEvent) (r : ReadEvent) :
    (∀ c w, latestCopyInto copies r.resource r.timestamp = some c →
      lookupWrite writes c.src = some w →
      ((classifyRead writes copies r = .matched ↔ w.2 = r.checksum) ∧
       (classifyRead writes copies r = .mismatched ↔ w.2 ≠ r.checksum))) ∧
    (latestCopyInto copies r.resource r.timestamp = none →
      classifyRead writes copies r = .unclassified) ∧
    (∀ c, latestCopyInto copies r.resource r.timestamp = some c →
      lookupWrite writes c.src = none →
      classifyRead writes copies r = .unclassified) ∧
    (∀ reads, classifyRead writes copies r = .unclassified →
      verifyCounts writes copies (reads ++ [r]) = verifyCounts writes copies reads) := by
  refine ⟨?_, ?_, ?_, ?_⟩
  · intro c w hc hw
    obtain ⟨wt, wc⟩ := w
    simp only [classifyRead, hc, hw]
    split_ifs with he <;> simp [he]
  · intro hc
    simp only [classifyRead, hc]
  · intro c hc hw
    simp only [classifyRead, hc, hw]
  · intro reads hr
    simp only [verifyCounts, List.foldl_append, List.foldl_cons, List.foldl_nil, hr]

/-- Witness for C1: one write, one copy of it into `d`, one read of `d`
observing the written checksum, classified Match. -/
theorem C1_witness : classifyRead c1writes c1copies c1read = Classification.matched := by
  have h := (C1_classification c1writes c1copies c1read).1 ⟨5, "s", "d"⟩ (3, "0xaa")
    (by decide) (by decide)
  exact h.1.mpr (by decide)

/-- The match/mismatch totals of the verification fold exceed the seed by
exactly the number of reads not left unclassified. -/
theorem verifyCounts_go (writes : List (String × Nat × String)) (copies : List CopyEvent) :
    ∀ (reads : List ReadEvent) (acc : Nat × Nat),
      (reads.foldl
        (fun mc r =>
          match classifyRead writes copies r with
          | .matched => (mc.1 + 1, mc.2)
          | .mismatched => (mc.1, mc.2 + 1)
          | .unclassified => mc) acc).1 +
      (reads.foldl
        (fun mc r =>
          match classifyRead writes copies r with
          | .matched => (mc.1 + 1, mc.2)
          | .mismatched => (mc.1, mc.2 + 1)
          | .unclassified => mc) acc).2 =
      acc.1 + acc.2 +
        reads.countP (fun r => !decide (classifyRead writes copies r = .unclassified)) := by
  intro reads
  induction reads with
  | nil =>
    intro acc
    simp
  | cons r t ih =>
    intro acc
    rw [List.foldl_cons, List.countP_cons, ih]
    cases hcl : classifyRead writes copies r with
    | matched => simp [hcl]; omega
    | mismatched => simp [hcl]; omega
    | unclassified => simp [hcl]

/-- Claim C8: after verifying every read, matches plus mismatches never
exceeds the total read count, and the shortfall is exactly the number of
reads classified Unclassified. -/
theorem C8_tally_invariant (writes : List (String × Nat × String))
    (copies : List CopyEvent) (reads : List ReadEvent) :
    (verifyCounts writes copies reads).1 + (verifyCounts writes copies reads).2 ≤
      reads.length ∧
    reads.length -
      ((verifyCounts writes copies reads).1 + (verifyCounts writes copies reads).2) =
      unclassifiedCount writes copies reads := by
  have h : (verifyCounts writes copies reads).1 + (verifyCounts writes copies reads).2 =
      0 + 0 + reads.countP (fun r => !decide (classifyRead writes copies r = .unclassified)) :=
    verifyCounts_go writes copies reads (0, 0)
  have hlen : reads.length =
      reads.countP (fun r => decide (classifyRead writes copies r = .unclassified)) +
      reads.countP (fun r => !decide (classifyRead writes copies r = .unclassified)) := by
    have h0 := List.length_eq_countP_add_countP
      (fun r => decide (classifyRead writes copies r = Classification.unclassified))
      (l := reads)
    simpa using h0
  have hu : unclassifiedCount writes copies reads =
      reads.countP (fun r => decide (classifyRead writes copies r = .unclassified)) := rfl
  omega

/-! ### Extraction-pass lemmas -/

/-- Keys after a dict assignment are the old keys plus the assigned key. -/
theorem recordWrite_key_mem : ∀ (ws : List (String × Nat × String)) (r : String)
    (v : Nat × String) (x : String),
    x ∈ (recordWrite ws r v).map Prod.fst ↔ x ∈ ws.map Prod.fst ∨ x = r := by
  intro ws r v
  induction ws with
  | nil =>
    intro x
    simp [recordWrite]
  | cons p t ih =>
    intro x
    obtain ⟨k, w⟩ := p
    by_cases hk : k = r
    · simp only [recordWrite, if_pos hk, List.map_cons, List.mem_cons]
      subst hk
      tauto
    · simp only [recordWrite, if_neg hk, List.map_cons, List.mem_cons, ih]
      tauto

/-- Dict assignment preserves distinctness of keys. -/
theorem recordWrite_keys_nodup : ∀ (ws : List (String × Nat × String)) (r : String)
    (v : Nat × String),
    (ws.map Prod.fst).Nodup → ((recordWrite ws r v).map Prod.fst).Nodup := by
  intro ws r v
  induction ws with
  | nil =>
    intro _
    simp [recordWrite]
  | cons p t ih =>
    intro hnd
    obtain ⟨k, w⟩ := p
    simp only [List.map_cons, List.nodup_cons] at hnd
    by_cases hk : k = r
    · simp only [recordWrite, if_pos hk, List.map_cons, List.nodup_cons]
      subst hk
      exact hnd
    · simp only [recordWrite, if_neg hk, List.map_cons, List.nodup_cons]
      refine ⟨?_, ih hnd.2⟩
      rw [recordWrite_key_mem]
      rintro (hmem | heq)
      · exact hnd.1 hmem
      · exact hk heq

/-- Processing any event list preserves distinctness of the dict keys. -/
theorem extract_writes_nodup_from : ∀ (evs : List TraceEvent) (s : ExtractState),
    (s.writes.map Prod.fst).Nodup →
    (((evs.foldl processEvent s).writes).map Prod.fst).Nodup := by
  intro evs
  induction evs with
  | nil =>
    intro s h
    exact h
  | cons e t ih =>
    intro s h
    rw [List.foldl_cons]
    apply ih
    cases e with
    | write ts r c => exact recordWrite_keys_nodup s.writes r (ts, c) h
    | read ts r c => exact h
    | copy ts a b => exact h

/-- Looking up the assigned key after a dict assignment yields the new value. -/
theorem lookupWrite_recordWrite_self : ∀ (ws : List (String × Nat × String))
    (r : String) (v : Nat × String), lookupWrite (recordWrite ws r v) r = some v := by
  intro ws r v
  induction ws with
  | nil =>
    simp [recordWrite, lookupWrite]
  | cons p t ih =>
    obtain ⟨k, w⟩ := p
    by_cases hk : k = r
    · subst hk
      simp [recordWrite, lookupWrite]
    · simp only [recordWrite, if_neg hk, lookupWrite, ih]

/-- The copies accumulated by the extraction pass are exactly the copy
events of the input, in order, appended to the initial copies. -/
theorem extract_copies_from : ∀ (evs : List TraceEvent) (s : ExtractState),
    (evs.foldl processEvent s).copies = s.copies ++ evs.filterMap copyOf := by
  intro evs
  induction evs with
  | nil =>
    intro s
    simp
  | cons e t ih =>
    intro s
    rw [List.foldl_cons]
    cases e with
    | write ts r c =>
      rw [ih]
      simp [processEvent, copyOf, List.filterMap_cons]
    | read ts r c =>
      rw [ih]
      simp [processEvent, copyOf, List.filterMap_cons]
    | copy ts a b =>
      rw [ih]
      simp [processEvent, copyOf, List.filterMap_cons]

/-- Claim C9: throughout extraction the index holds at most one write per
resource (distinct dict keys); recording a write replaces any prior entry
for that resource with the newly parsed one regardless of timestamps; and
every copy event is appended and never overwritten or removed. -/
theorem C9_provenance_index_invariants :
    (∀ evs : List TraceEvent, (((extractTrace evs).writes).map Prod.fst).Nodup) ∧
    (∀ (evs : List TraceEvent) (t : Nat) (r c : String),
      lookupWrite (extractTrace (evs ++ [TraceEvent.write t r c])).writes r = some (t, c)) ∧
    (∀ evs : List TraceEvent, (extractTrace evs).copies = evs.filterMap copyOf) := by
  refine ⟨?_, ?_, ?_⟩
  · intro evs
    exact extract_writes_nodup_from evs ⟨[], [], []⟩ (by simp)
  · intro evs t r c
    show lookupWrite
      ((evs ++ [TraceEvent.write t r c]).foldl processEvent ⟨[], [], []⟩).writes r = some (t, c)
    rw [List.foldl_append, List.foldl_cons, List.foldl_nil]
    exact lookupWrite_recordWrite_self _ r (t, c)
  · intro evs
    have h := extract_copies_from evs ⟨[], [], []⟩
    simpa using h

/-! ### Frequency-ordering lemmas -/

/-- Inserting an entry passes only strictly larger counts, so filtering at
the inserted entry's count prepends it to the filtered rest. -/
theorem filter_orderedInsert_eq (x : String × Nat) :
    ∀ l : List (String × Nat),
      (List.orderedInsert countGE x l).filter (fun z => z.2 == x.2) =
        x :: l.filter (fun z => z.2 == x.2) := by
  intro l
  induction l with
  | nil => simp [List.orderedInsert]
  | cons y t ih =>
    by_cases h : countGE x y
    · simp [List.orderedInsert, if_pos h, List.filter_cons]
    · have hy : (y.2 == x.2) = false := by
        simp only [countGE, not_le] at h
        simp only [beq_eq_false_iff_ne]
        omega
      simp only [List.orderedInsert, if_neg h, List.filter_cons, hy]
      simpa using ih

/-- Inserting an entry of a different count leaves the filter at that count
unchanged. -/
theorem filter_orderedInsert_ne (x : String × Nat) (n : Nat) (hx : x.2 ≠ n) :
    ∀ l : List (String × Nat),
      (List.orderedInsert countGE x l).filter (fun z => z.2 == n) =
        l.filter (fun z => z.2 == n) := by
  intro l
  have hxb : (x.2 == n) = false := by simp [hx]
  induction l with
  | nil => simp [List.orderedInsert, hxb]
  | cons y t ih =>
    by_cases h : countGE x y
    · simp [List.orderedInsert, if_pos h, List.filter_cons, hxb]
    · simp only [List.orderedInsert, if_neg h, List.filter_cons]
      rw [ih]

/-- The count-descending insertion sort is stable: entries of any given
count keep their relative order. -/
theorem filter_insertionSort_count (n : Nat) :
    ∀ l : List (String × Nat),
      (l.insertionSort countGE).filter (fun z => z.2 == n) =
        l.filter (fun z => z.2 == n) := by
  intro l
  induction l with
  | nil => rfl
  | cons x t ih =>
    simp only [List.insertionSort]
    by_cases hx : x.2 = n
    · subst hx
      rw [filter_orderedInsert_eq x (t.insertionSort countGE), ih]
      simp [List.filter_cons]
    · rw [filter_orderedInsert_ne x n hx (t.insertionSort countGE), ih]
      have hxb : (x.2 == n) = false := by simp [hx]
      simp [List.filter_cons, hxb]

/-- Counterexample to claim C5: the top-10 list is not ordered ascending by
checksum token among equal counts.  With reads observing checksums `0xb`
then `0xa` once each, the stable sort keeps first-occurrence order and
returns `0xb` before `0xa`, although `0xa < 0xb`. -/
theorem C5_counterexample :
    ¬ ∀ reads : List ReadEvent,
        List.Pairwise (fun x y : String × Nat => x.2 = y.2 → x.1 < y.1)
          (topChecksums reads) := by
  intro hall
  have h := hall c5reads
  have he : topChecksums c5reads = [("0xb", 1), ("0xa", 1)] := by decide
  rw [he] at h
  have hlt : ("0xb" : String) < "0xa" :=
    (List.pairwise_cons.mp h).1 ("0xa", 1) (by simp) rfl
  rw [String.lt_iff_toList_lt] at hlt
  exact absurd hlt (by decide)

/-- Claim C5, amended: the top-10 frequency list is ordered by occurrence
count descending, and entries with equal counts appear in the order of first
occurrence of their checksum in the read sequence (deterministic for a given
input, but not ascending by token): the sort is stable over the
first-occurrence table. -/
theorem C5_amended_order (reads : List ReadEvent) :
    List.Sorted countGE (topChecksums reads) ∧
    ∀ n : Nat,
      ((checksumCounts reads).insertionSort countGE).filter (fun z => z.2 == n) =
        (checksumCounts reads).filter (fun z => z.2 == n) := by
  constructor
  · exact List.Pairwise.sublist (List.take_sublist 10 _)
      (List.sorted_insertionSort countGE (checksumCounts reads))
  · intro n
    exact filter_insertionSort_count n (checksumCounts reads)

/-- Claim C7: the interval analyzer takes consecutive differences of read
timestamps in encounter order, yields no statistics when fewer than two
reads exist, and on reads at 100, 300, 700 microseconds computes intervals
200 and 400 with mean 300, minimum 200, maximum 400. -/
theorem C7_interval_analysis :
    (∀ reads : List ReadEvent, reads.length < 2 → intervalStats reads = none) ∧
    readIntervals c7reads = [200, 400] ∧
    intervalStats c7reads = some (300, 200, 400) := by
  refine ⟨?_, ?_, ?_⟩
  · intro reads h
    match reads with
    | [] => rfl
    | [r] => rfl
    | r1 :: r2 :: t =>
      exfalso
      simp only [List.length_cons] at h
      omega
  · decide
  · show intervalStatsAux (readIntervals c7reads) = some (300, 200, 400)
    have hri : readIntervals c7reads = [200, 400] := by decide
    rw [hri]
    simp only [intervalStatsAux, List.foldl_cons, List.foldl_nil, List.length_cons,
      List.length_nil, Option.some.injEq, Prod.mk.injEq]
    norm_num

/-- Witness for C7: a single read produces no interval statistics. -/
theorem C7_witness : intervalStats [⟨5, "r", "x"⟩] = none :=
  C7_interval_analysis.1 [⟨5, "r", "x"⟩] (by decide)
